import Mathlib

/-!
Shallow embedding of the `timely-window` streaming-window engine.

Source layout:
- `src/generic.rs`: the `WindowBuffer` abstraction (implemented for
  `HashMap<T, Vec<D>>`), the read-only `Watermark` view over a frontier,
  and the generic `Window` trait (`give_vec` = `on_new_data` then `store`).
- `src/windows/tumbling.rs`: the watermark-driven `TumblingWindow` policy
  (`try_emit(&mut self, watermark)`).
- `src/window.rs`: the data-driven `TumblingWindow` variant
  (`try_emit(&mut self)` gated on `max_time`, plus `drain`).

Timestamps are modelled as `Nat` (the repository's tests use `u64`; the
step summary `size.results_in(&t)` is `t + size`, and the claims under
study do not involve overflow).  The `HashMap<T, Vec<D>>` buffer is
modelled as an association list with distinct keys; the source sorts the
keys before any order-sensitive use, so iteration order of the map is
immaterial.  `Vec::sort` / `sort_by` are modelled by `List.insertionSort`
(both are stable sorts).
-/

namespace TimelyWindow

/-- A window buffer: finite map from timestamp to the stored data, in
entry-creation order.  Models `HashMap<T, Vec<D>>`. -/
abbrev Buffer (D : Type) := List (Nat × List D)

namespace WindowBuffer

/-- Model of `fn timestamps(&self) -> Vec<&T>`: the stored keys. -/
def timestamps {D : Type} (buf : Buffer D) : List Nat := buf.map Prod.fst

/-- Model of `fn store(&mut self, time, data)`:
`self.entry(time).or_default().extend(data)` — append to the entry for
`time`, creating it (possibly empty) if absent. -/
def store {D : Type} (buf : Buffer D) (t : Nat) (ds : List D) : Buffer D :=
  match buf with
  | [] => [(t, ds)]
  | e :: rest =>
    if e.1 = t then (e.1, e.2 ++ ds) :: rest else e :: store rest t ds

/-- Model of `fn remove(&mut self, time) -> Option<Vec<D>>`: detach the
whole entry for `time`, returning its data, or `none` when absent. -/
def remove {D : Type} (buf : Buffer D) (t : Nat) : Option (List D) × Buffer D :=
  match buf with
  | [] => (none, [])
  | e :: rest =>
    if e.1 = t then (some e.2, rest)
    else ((remove rest t).1, e :: (remove rest t).2)

/-- Lookup of the data stored under `t` (the map view of the buffer). -/
def find {D : Type} (buf : Buffer D) (t : Nat) : Option (List D) :=
  match buf with
  | [] => none
  | e :: rest => if e.1 = t then some e.2 else find rest t

/-- Well-formedness of the model: a `HashMap` has each key at most once. -/
def WF {D : Type} (buf : Buffer D) : Prop := (timestamps buf).Nodup

end WindowBuffer

/-- Read-only watermark view over a progress frontier (an antichain of
timestamps), modelled as the list of the frontier's elements. -/
abbrev Frontier := List Nat

/-- Model of `Watermark::less_equal(&self, time)` via
`MutableAntichain::less_equal`: some frontier element is `≤ time`. -/
def lessEqual (w : Frontier) (t : Nat) : Bool := w.any fun f => f ≤ t

/-- Model of `Watermark::less_than(&self, time)`: some frontier element is
strictly below `time`. -/
def lessThan (w : Frontier) (t : Nat) : Bool := w.any fun f => f < t

/-- Flatten a buffer fragment into timestamped records, preserving entry
order and in-entry (insertion) order: models
`data.into_iter().map(|v| (time.clone(), v))` accumulated over entries. -/
def flat {D : Type} (buf : Buffer D) : List (Nat × D) :=
  buf.flatMap fun e => e.2.map fun d => (e.1, d)

/-- The extraction loop shared by both `try_emit` implementations:
`for time in ready_times { data.extend(self.buffer.remove(&time).unwrap() ...) }`.
The source unwraps the `Option` from `remove`; every key in `ready` is
drawn from the buffer's own key set, so the absent branch is unreachable
and is modelled as contributing nothing. -/
def extractAll {D : Type} (buf : Buffer D) : List Nat → List (Nat × D) × Buffer D
  | [] => ([], buf)
  | t :: ts =>
    (((WindowBuffer.remove buf t).1.getD []).map (fun d => (t, d))
        ++ (extractAll (WindowBuffer.remove buf t).2 ts).1,
      (extractAll (WindowBuffer.remove buf t).2 ts).2)

/-- Shared body of both `try_emit` implementations once the readiness test
has passed: filter the buffered timestamps strictly below the boundary,
sort them, and extract each in order. -/
def emitReady {D : Type} (buf : Buffer D) (b : Nat) : List (Nat × D) × Buffer D :=
  let ready :=
    List.insertionSort (· ≤ ·)
      ((WindowBuffer.timestamps buf).filter fun t => decide (t < b))
  extractAll buf ready

/-- An emission: the closed boundary paired with the flattened batch. -/
abbrev Emission (D : Type) := Nat × List (Nat × D)

/-! Watermark-driven tumbling window, `src/windows/tumbling.rs`. -/

namespace Tumbling

/-- `TumblingWindow<T, D>` of `src/windows/tumbling.rs`: a fixed step
`size`, the optional armed boundary `emit_time`, and the buffer. -/
structure TumblingWindow (D : Type) where
  size : Nat
  emit_time : Option Nat
  buffer : Buffer D
  deriving Repr, DecidableEq

/-- Model of `TumblingWindow::new(size, init_time)`:
`emit_time = init_time.map(|t| size.results_in(&t).unwrap())`. -/
def new (D : Type) (size : Nat) (init_time : Option Nat) : TumblingWindow D :=
  { size := size, emit_time := init_time.map fun t => t + size, buffer := [] }

/-- Model of `on_new_data`: lazily arm the boundary from the first
observed timestamp. -/
def on_new_data {D : Type} (s : TumblingWindow D) (time : Nat) (_data : List D) :
    TumblingWindow D :=
  match s.emit_time with
  | none => { s with emit_time := some (time + s.size) }
  | some _ => s

/-- Model of the `Window::give_vec` default method: call the
`on_new_data` hook, then store into the buffer. -/
def give_vec {D : Type} (s : TumblingWindow D) (time : Nat) (data : List D) :
    TumblingWindow D :=
  let s := on_new_data s time data
  { s with buffer := WindowBuffer.store s.buffer time data }

/-- Model of the `Window::give` default method: one record. -/
def give {D : Type} (s : TumblingWindow D) (time : Nat) (d : D) : TumblingWindow D :=
  give_vec s time [d]

/-- Model of `TumblingWindow::try_emit(&mut self, watermark)`: take the
armed boundary (returning none when unarmed); restore it and return none
while `watermark.less_equal(boundary)`; otherwise extract everything
strictly below the boundary, re-arm to `size.results_in(&boundary)`, and
return the old boundary with the flattened batch. -/
def tryEmit {D : Type} (w : Frontier) (s : TumblingWindow D) :
    Option (Emission D) × TumblingWindow D :=
  match s.emit_time with
  | none => (none, s)
  | some b =>
    if lessEqual w b then (none, { s with emit_time := some b })
    else
      let r := emitReady s.buffer b
      (some (b, r.1), { s with buffer := r.2, emit_time := some (b + s.size) })

/-- Operations a driver can perform on one watermark-driven instance. -/
inductive Op (D : Type) where
  | give (t : Nat) (d : D)
  | tryEmit (w : Frontier)
  deriving Repr, DecidableEq

/-- Run a sequence of operations, collecting the successful emissions in
order. -/
def run {D : Type} (s : TumblingWindow D) :
    List (Op D) → List (Emission D) × TumblingWindow D
  | [] => ([], s)
  | .give t d :: ops => run (give s t d) ops
  | .tryEmit w :: ops =>
    match tryEmit w s with
    | (none, s') => run s' ops
    | (some e, s') =>
      let r := run s' ops
      (e :: r.1, r.2)

end Tumbling

/-! Data-driven tumbling window, `src/window.rs`. -/

namespace WindowRs

/-- `TumblingWindow<T, D>` of `src/window.rs`: additionally tracks
`max_time`, the greatest timestamp observed so far. -/
structure TumblingWindow (D : Type) where
  size : Nat
  emit_time : Option Nat
  buffer : Buffer D
  max_time : Option Nat
  deriving Repr, DecidableEq

/-- Model of `TumblingWindow::new(size, init_time)` from `src/window.rs`. -/
def new (D : Type) (size : Nat) (init_time : Option Nat) : TumblingWindow D :=
  { size := size, emit_time := init_time.map fun t => t + size,
    buffer := [], max_time := none }

/-- Model of `on_new_data` from `src/window.rs`: arm the boundary when
unarmed, and raise `max_time` when the new timestamp exceeds it. -/
def on_new_data {D : Type} (s : TumblingWindow D) (time : Nat) (_data : List D) :
    TumblingWindow D :=
  let s :=
    match s.emit_time with
    | none => { s with emit_time := some (time + s.size) }
    | some _ => s
  match s.max_time with
  | some m => if m < time then { s with max_time := some time } else s
  | none => { s with max_time := some time }

/-- Model of the `Window::give_vec` default method of `src/window.rs`. -/
def give_vec {D : Type} (s : TumblingWindow D) (time : Nat) (data : List D) :
    TumblingWindow D :=
  let s := on_new_data s time data
  { s with buffer := WindowBuffer.store s.buffer time data }

/-- Model of the `Window::give` default method: one record. -/
def give {D : Type} (s : TumblingWindow D) (time : Nat) (d : D) : TumblingWindow D :=
  give_vec s time [d]

/-- Model of `TumblingWindow::try_emit(&mut self)` from `src/window.rs`.
The outer `Option` models panic: the source runs
`self.max_time.clone().unwrap()` after the armed-boundary check, so an
armed boundary with no observed data panics (`none` here).  A normal
return is `some (emission?, state)`. -/
def tryEmit {D : Type} (s : TumblingWindow D) :
    Option (Option (Emission D) × TumblingWindow D) :=
  match s.emit_time with
  | none => some (none, s)
  | some b =>
    match s.max_time with
    | none => none
    | some m =>
      if m < b then some (none, s)
      else
        let r := emitReady s.buffer b
        some (some (b, r.1), { s with buffer := r.2, emit_time := some (b + s.size) })

/-- Model of `TumblingWindow::drain(&mut self)` from `src/window.rs`:
return none when no boundary was ever armed; otherwise empty the whole
buffer, and when anything was buffered return it sorted by timestamp
(`sort_by` is stable, so in-entry order is preserved on ties), tagged
with the current boundary. -/
def drain {D : Type} (s : TumblingWindow D) :
    Option (Emission D) × TumblingWindow D :=
  match s.emit_time with
  | none => (none, s)
  | some b =>
    let reserved := flat s.buffer
    let s' := { s with buffer := ([] : Buffer D) }
    if reserved.isEmpty then (none, s')
    else (some (b, List.insertionSort (fun p q => p.1 ≤ q.1) reserved), s')

/-- Operations a driver can perform on one data-driven instance. -/
inductive Op (D : Type) where
  | give (t : Nat) (d : D)
  | tryEmit
  deriving Repr, DecidableEq

/-- Run a sequence of operations, collecting successful emissions in
order; the result is `none` when some `try_emit` call panicked. -/
def run {D : Type} (s : TumblingWindow D) :
    List (Op D) → Option (List (Emission D) × TumblingWindow D)
  | [] => some ([], s)
  | .give t d :: ops => run (give s t d) ops
  | .tryEmit :: ops =>
    match tryEmit s with
    | none => none
    | some (none, s') => run s' ops
    | some (some e, s') =>
      (run s' ops).map fun r => (e :: r.1, r.2)

/-- The multiset of records handed to the policy by a run. -/
def givenRecords {D : Type} (ops : List (Op D)) : List (Nat × D) :=
  ops.filterMap fun op =>
    match op with
    | .give t d => some (t, d)
    | .tryEmit => none

/-- The batch produced by a final `drain` call, empty when `drain`
returns none. -/
def drainBatch {D : Type} (s : TumblingWindow D) : List (Nat × D) :=
  match (drain s).1 with
  | some e => e.2
  | none => []

end WindowRs

/-- Driver-visible operations on the raw window buffer (`store` as called by
`give_vec`, `remove` as called by a window close). -/
inductive BufOp (D : Type) where
  | store (t : Nat) (ds : List D)
  | remove (t : Nat)
  deriving Repr, DecidableEq

/-- Apply a sequence of buffer operations to a buffer. -/
def applyBufOps {D : Type} (buf : Buffer D) : List (BufOp D) → Buffer D
  | [] => buf
  | .store t ds :: ops => applyBufOps (WindowBuffer.store buf t ds) ops
  | .remove t :: ops => applyBufOps ((WindowBuffer.remove buf t).2) ops

/-- The driver schedule of the specification's walkthrough scenario: one
record at each time 1..9 (datum = its time, as in the repository's test),
with a `try_emit` attempt after each record, on a size-4 window. -/
def c5ops : List (WindowRs.Op Nat) :=
  (List.range' 1 9).flatMap fun t => [WindowRs.Op.give t t, WindowRs.Op.tryEmit]

/-! Lemmas about the buffer model. -/

namespace WindowBuffer

theorem remove_fst {D : Type} (buf : Buffer D) (t : Nat) :
    (remove buf t).1 = find buf t := by
  induction buf with
  | nil => rfl
  | cons e rest ih =>
    by_cases h : e.1 = t <;> simp [remove, find, h, ih]

theorem remove_snd_of_wf {D : Type} (buf : Buffer D) (t : Nat) (hwf : WF buf) :
    (remove buf t).2 = buf.filter fun e => decide (e.1 ≠ t) := by
  induction buf with
  | nil => rfl
  | cons e rest ih =>
    rw [WF, timestamps] at hwf
    simp only [List.map_cons, List.nodup_cons] at hwf
    by_cases h : e.1 = t
    · subst h
      have hall : ∀ e' ∈ rest, decide (e'.1 ≠ e.1) = true := by
        intro e' he'
        simp only [decide_eq_true_eq]
        intro hk
        exact hwf.1 (hk ▸ List.mem_map_of_mem Prod.fst he')
      have hrm : (remove (e :: rest) e.1).2 = rest := by simp [remove]
      have hfe : List.filter (fun x => decide (x.1 ≠ e.1)) (e :: rest)
          = List.filter (fun x => decide (x.1 ≠ e.1)) rest := by
        simp [List.filter_cons]
      rw [hrm, hfe, List.filter_eq_self.mpr hall]
    · simp [remove, h, ih hwf.2]

theorem find_remove_ne {D : Type} (buf : Buffer D) {t t' : Nat} (h : t' ≠ t) :
    find ((remove buf t).2) t' = find buf t' := by
  induction buf with
  | nil => rfl
  | cons e rest ih =>
    by_cases he : e.1 = t
    · have h1 : e.1 ≠ t' := fun hc => h (hc ▸ he)
      simp [remove, find, he, h1, Ne.symm h]
    · by_cases he' : e.1 = t' <;> simp [remove, find, he, he', h, ih]

theorem find_of_mem_wf {D : Type} {buf : Buffer D} {t : Nat} {ds : List D}
    (hwf : WF buf) (hm : (t, ds) ∈ buf) : find buf t = some ds := by
  induction buf with
  | nil => cases hm
  | cons e rest ih =>
    rw [WF, timestamps] at hwf
    simp only [List.map_cons, List.nodup_cons] at hwf
    rcases List.mem_cons.mp hm with h | h
    · subst h; simp [find]
    · have hne : e.1 ≠ t := by
        intro hc
        exact hwf.1 (hc ▸ List.mem_map_of_mem Prod.fst h)
      simp [find, hne, ih hwf.2 h]

theorem find_eq_none_of_not_mem {D : Type} {buf : Buffer D} {t : Nat}
    (h : t ∉ timestamps buf) : find buf t = none := by
  induction buf with
  | nil => rfl
  | cons e rest ih =>
    rw [timestamps] at h
    simp only [List.map_cons, List.mem_cons] at h
    push_neg at h
    simp [find, Ne.symm h.1, ih h.2]

theorem timestamps_filter_key {D : Type} (buf : Buffer D) (p : Nat → Bool) :
    timestamps (buf.filter fun e => p e.1) = (timestamps buf).filter p := by
  induction buf with
  | nil => rfl
  | cons e rest ih =>
    cases hp : p e.1 <;> simp [timestamps, List.filter_cons, hp] <;>
      simpa [timestamps] using ih

theorem wf_filter {D : Type} {buf : Buffer D} (hwf : WF buf) (p : Nat × List D → Bool) :
    WF (buf.filter p) := by
  rw [WF, timestamps]
  exact hwf.sublist ((buf.filter_sublist).map Prod.fst)

theorem wf_remove {D : Type} {buf : Buffer D} (hwf : WF buf) (t : Nat) :
    WF ((remove buf t).2) := by
  rw [remove_snd_of_wf buf t hwf]
  exact wf_filter hwf _

theorem mem_remove_snd {D : Type} {buf : Buffer D} {t : Nat} {e : Nat × List D}
    (h : e ∈ (remove buf t).2) : e ∈ buf := by
  induction buf with
  | nil => cases h
  | cons e' rest ih =>
    by_cases he : e'.1 = t
    · simp only [remove, if_pos he] at h
      exact List.mem_cons_of_mem _ h
    · simp only [remove, if_neg he, List.mem_cons] at h
      rcases h with h | h
      · exact h ▸ List.mem_cons_self _ _
      · exact List.mem_cons_of_mem _ (ih h)

theorem mem_store {D : Type} {buf : Buffer D} {t : Nat} {ds : List D}
    {e : Nat × List D} (h : e ∈ store buf t ds) :
    e ∈ buf ∨ (∃ e' ∈ buf, e = (e'.1, e'.2 ++ ds)) ∨ e = (t, ds) := by
  induction buf with
  | nil =>
    simp only [store, List.mem_singleton] at h
    exact Or.inr (Or.inr h)
  | cons e' rest ih =>
    by_cases he : e'.1 = t
    · simp only [store, if_pos he, List.mem_cons] at h
      rcases h with h | h
      · exact Or.inr (Or.inl ⟨e', List.mem_cons_self _ _, h⟩)
      · exact Or.inl (List.mem_cons_of_mem _ h)
    · simp only [store, if_neg he, List.mem_cons] at h
      rcases h with h | h
      · exact Or.inl (h ▸ List.mem_cons_self _ _)
      · rcases ih h with h | ⟨e'', he'', hh⟩ | h
        · exact Or.inl (List.mem_cons_of_mem _ h)
        · exact Or.inr (Or.inl ⟨e'', List.mem_cons_of_mem _ he'', hh⟩)
        · exact Or.inr (Or.inr h)

end WindowBuffer

/-! Conservation: extraction returns exactly what it removes. -/

theorem flat_cons {D : Type} (e : Nat × List D) (buf : Buffer D) :
    flat (e :: buf) = (e.2.map fun d => (e.1, d)) ++ flat buf := by
  simp [flat]

theorem store_flat_perm {D : Type} (buf : Buffer D) (t : Nat) (ds : List D) :
    (flat (WindowBuffer.store buf t ds)).Perm
      (flat buf ++ ds.map fun d => (t, d)) := by
  induction buf with
  | nil => simp [WindowBuffer.store, flat]
  | cons e rest ih =>
    by_cases he : e.1 = t
    · subst he
      have hs : WindowBuffer.store (e :: rest) e.1 ds = (e.1, e.2 ++ ds) :: rest := by
        simp [WindowBuffer.store]
      rw [hs]
      simp only [flat_cons, List.map_append, List.append_assoc]
      exact List.perm_append_comm.append_left _
    · simp only [WindowBuffer.store, if_neg he, flat_cons]
      rw [List.append_assoc]
      exact ih.append_left _

theorem remove_flat_perm {D : Type} (buf : Buffer D) (t : Nat) :
    ((((WindowBuffer.remove buf t).1.getD []).map fun d => (t, d))
        ++ flat ((WindowBuffer.remove buf t).2)).Perm (flat buf) := by
  induction buf with
  | nil => simp [WindowBuffer.remove, flat]
  | cons e rest ih =>
    by_cases he : e.1 = t
    · subst he
      simp [WindowBuffer.remove, flat_cons]
    · simp only [WindowBuffer.remove, if_neg he, flat_cons]
      refine List.Perm.trans ?_ (ih.append_left (e.2.map fun d => (e.1, d)))
      rw [← List.append_assoc, ← List.append_assoc]
      exact List.perm_append_comm.append_right _

theorem extractAll_flat_perm {D : Type} (ks : List Nat) (buf : Buffer D) :
    ((extractAll buf ks).1 ++ flat ((extractAll buf ks).2)).Perm (flat buf) := by
  induction ks generalizing buf with
  | nil => simp [extractAll]
  | cons t ts ih =>
    simp only [extractAll, List.append_assoc]
    exact ((ih _).append_left _).trans (remove_flat_perm buf t)

theorem emitReady_flat_perm {D : Type} (buf : Buffer D) (b : Nat) :
    ((emitReady buf b).1 ++ flat ((emitReady buf b).2)).Perm (flat buf) :=
  extractAll_flat_perm _ _

theorem applyBufOps_nonempty {D : Type} (ops : List (BufOp D)) (buf : Buffer D)
    (hbuf : ∀ e ∈ buf, e.2 ≠ [])
    (hne : ∀ t ds, BufOp.store t ds ∈ ops → ds ≠ []) :
    ∀ e ∈ applyBufOps buf ops, e.2 ≠ [] := by
  induction ops generalizing buf with
  | nil => exact hbuf
  | cons op ops ih =>
    cases op with
    | store t ds =>
      refine ih _ ?_ fun t' ds' h => hne t' ds' (List.mem_cons_of_mem _ h)
      intro e he
      rcases WindowBuffer.mem_store he with h | ⟨e', _, h⟩ | h
      · exact hbuf e h
      · have hds : ds ≠ [] := hne t ds (List.mem_cons_self _ _)
        subst h
        simp only [ne_eq, List.append_eq_nil]
        exact fun hc => hds hc.2
      · subst h
        exact hne t ds (List.mem_cons_self _ _)
    | remove t =>
      exact ih _ (fun e he => hbuf e (WindowBuffer.mem_remove_snd he))
        fun t' ds' h => hne t' ds' (List.mem_cons_of_mem _ h)

/-! Lemmas about the watermark-driven trace semantics. -/

namespace Tumbling

theorem give_size {D : Type} (s : TumblingWindow D) (t : Nat) (d : D) :
    (give s t d).size = s.size := by
  cases h : s.emit_time <;> simp [give, give_vec, on_new_data, h]

theorem give_emit_time_some {D : Type} {s : TumblingWindow D} {et : Nat}
    (h : s.emit_time = some et) (t : Nat) (d : D) :
    (give s t d).emit_time = some et := by
  simp [give, give_vec, on_new_data, h]

theorem set_emit_time_eq {D : Type} {s : TumblingWindow D} {b : Nat}
    (h : s.emit_time = some b) :
    ({ s with emit_time := some b } : TumblingWindow D) = s := by
  cases s
  simp_all

theorem run_boundaries_pairwise {D : Type} (ops : List (Op D))
    (s : TumblingWindow D) (hsize : 1 ≤ s.size) :
    List.Pairwise (· < ·) ((run s ops).1.map Prod.fst) ∧
    ∀ et, s.emit_time = some et → ∀ b ∈ (run s ops).1.map Prod.fst, et ≤ b := by
  induction ops generalizing s with
  | nil => exact ⟨List.Pairwise.nil, fun _ _ b hb => absurd hb (List.not_mem_nil b)⟩
  | cons op ops ih =>
    cases op with
    | give t d =>
      have hsz : 1 ≤ (give s t d).size := by rw [give_size]; exact hsize
      obtain ⟨hpw, hlo⟩ := ih (give s t d) hsz
      exact ⟨hpw, fun et het b hb => hlo et (give_emit_time_some het t d) b hb⟩
    | tryEmit w =>
      cases het : s.emit_time with
      | none =>
        have htry : tryEmit w s = (none, s) := by simp [tryEmit, het]
        simp only [run, htry]
        obtain ⟨hpw, _⟩ := ih s hsize
        exact ⟨hpw, fun et hc => absurd hc (by simp)⟩
      | some b =>
        cases hle : lessEqual w b with
        | true =>
          have htry : tryEmit w s = (none, s) := by
            have h1 : ({ s with emit_time := some b } : TumblingWindow D) = s :=
              set_emit_time_eq het
            simp [tryEmit, het, hle, h1]
          simp only [run, htry]
          obtain ⟨hpw, hlo⟩ := ih s hsize
          exact ⟨hpw, fun et hc b' hb' => hlo et (het.trans hc) b' hb'⟩
        | false =>
          have htry : tryEmit w s
              = (some (b, (emitReady s.buffer b).1),
                  { s with buffer := (emitReady s.buffer b).2,
                           emit_time := some (b + s.size) }) := by
            simp [tryEmit, het, hle]
          obtain ⟨hpw, hlo⟩ :=
            ih { s with buffer := (emitReady s.buffer b).2,
                        emit_time := some (b + s.size) } hsize
          have hgt : ∀ b' ∈ List.map Prod.fst (run { s with buffer := (emitReady s.buffer b).2, emit_time := some (b + s.size) } ops).1, b < b' := by
            intro b' hb'
            have h1 : b + s.size ≤ b' := hlo (b + s.size) rfl b' hb'
            exact Nat.lt_of_lt_of_le (Nat.lt_add_of_pos_right hsize) h1
          simp only [run, htry]
          constructor
          · simpa using List.Pairwise.cons hgt hpw
          · intro et hc b' hb'
            have hetb : et = b := (Option.some.inj hc).symm
            subst hetb
            simp only [List.map_cons, List.mem_cons] at hb'
            rcases hb' with hb' | hb'
            · exact hb'.ge
            · exact Nat.le_of_lt (hgt b' hb')

end Tumbling

theorem decide_not_mem_cons (x t : Nat) (ts : List Nat) :
    decide (x ∉ t :: ts) = (decide (x ≠ t) && decide (x ∉ ts)) := by
  by_cases h1 : x = t <;> by_cases h2 : x ∈ ts <;> simp [h1, h2]

theorem extractAll_snd_of_wf {D : Type} (ks : List Nat) (buf : Buffer D)
    (hwf : WindowBuffer.WF buf) :
    (extractAll buf ks).2 = buf.filter fun e => decide (e.1 ∉ ks) := by
  induction ks generalizing buf with
  | nil =>
    exact (List.filter_eq_self.mpr fun e _ => by simp).symm
  | cons t ts ih =>
    have h1 : (extractAll buf (t :: ts)).2
        = (extractAll (WindowBuffer.remove buf t).2 ts).2 := rfl
    rw [h1, ih _ (WindowBuffer.wf_remove hwf t),
      WindowBuffer.remove_snd_of_wf buf t hwf, List.filter_filter]
    refine List.filter_congr fun e _ => ?_
    rw [decide_not_mem_cons, Bool.and_comm]

theorem extractAll_fst_of_wf {D : Type} (ks : List Nat) (buf : Buffer D)
    (hwf : WindowBuffer.WF buf) (hnd : ks.Nodup) :
    (extractAll buf ks).1
      = ks.flatMap fun t => ((WindowBuffer.find buf t).getD []).map fun d => (t, d) := by
  induction ks generalizing buf with
  | nil => rfl
  | cons t ts ih =>
    have h1 : (extractAll buf (t :: ts)).1
        = ((WindowBuffer.remove buf t).1.getD []).map (fun d => (t, d))
          ++ (extractAll (WindowBuffer.remove buf t).2 ts).1 := rfl
    rw [List.nodup_cons] at hnd
    rw [h1, WindowBuffer.remove_fst, ih _ (WindowBuffer.wf_remove hwf t) hnd.2,
      List.flatMap_cons]
    congr 1
    refine List.flatMap_congr fun t' ht' => ?_
    have hne : t' ≠ t := fun hc => hnd.1 (by rw [← hc]; exact ht')
    rw [WindowBuffer.find_remove_ne buf hne]

theorem pairwise_key_const {D : Type} (l : List (Nat × D)) (t : Nat)
    (h : ∀ p ∈ l, p.1 = t) :
    List.Pairwise (fun p q : Nat × D => p.1 ≤ q.1) l := by
  induction l with
  | nil => exact List.Pairwise.nil
  | cons a l ih =>
    refine List.Pairwise.cons (fun b hb => ?_)
      (ih fun p hp => h p (List.mem_cons_of_mem _ hp))
    rw [h a (List.mem_cons_self _ _), h b (List.mem_cons_of_mem _ hb)]

theorem pairwise_key_flatMap {D : Type} (ks : List Nat) (g : Nat → List (Nat × D))
    (hs : ks.Pairwise (· ≤ ·)) (hg : ∀ t, ∀ p ∈ g t, p.1 = t) :
    List.Pairwise (fun p q : Nat × D => p.1 ≤ q.1) (ks.flatMap g) := by
  induction ks with
  | nil => exact List.Pairwise.nil
  | cons t ts ih =>
    rw [List.flatMap_cons]
    rw [List.pairwise_cons] at hs
    refine List.pairwise_append.mpr ⟨pairwise_key_const _ t (hg t), ih hs.2, ?_⟩
    intro a ha b hb
    rw [hg t a ha]
    obtain ⟨t', ht', hbt'⟩ := List.mem_flatMap.mp hb
    rw [hg t' b hbt']
    exact hs.1 t' ht'

theorem flatMap_filter_key {D : Type} (ks : List Nat) (g : Nat → List (Nat × D))
    (t : Nat) (hnd : ks.Nodup) (hg : ∀ t', ∀ p ∈ g t', p.1 = t') :
    (ks.flatMap g).filter (fun p => decide (p.1 = t))
      = if t ∈ ks then g t else [] := by
  induction ks with
  | nil => simp
  | cons t' ts ih =>
    rw [List.nodup_cons] at hnd
    rw [List.flatMap_cons, List.filter_append, ih hnd.2]
    by_cases h : t' = t
    · have h1 : List.filter (fun p => decide (p.1 = t)) (g t') = g t' :=
        List.filter_eq_self.mpr fun p hp => by simp [hg t' p hp, h]
      have h2 : t ∉ ts := fun hc => hnd.1 (h ▸ hc)
      rw [h1, if_neg h2, if_pos (by rw [← h]; exact List.mem_cons_self _ _), ← h]
      simp
    · have h1 : List.filter (fun p => decide (p.1 = t)) (g t') = [] :=
        List.filter_eq_nil_iff.mpr fun p hp => by simp [hg t' p hp, h]
      rw [h1, List.nil_append]
      by_cases h2 : t ∈ ts
      · rw [if_pos h2, if_pos (List.mem_cons_of_mem _ h2)]
      · rw [if_neg h2, if_neg fun hc => ?_]
        rcases List.mem_cons.mp hc with hc | hc
        · exact h hc.symm
        · exact h2 hc

theorem emitReady_spec {D : Type} (buf : Buffer D) (b : Nat)
    (hwf : WindowBuffer.WF buf) :
    (emitReady buf b).2 = buf.filter (fun e => decide (¬ e.1 < b))
    ∧ ((emitReady buf b).1).Perm (flat (buf.filter fun e => decide (e.1 < b)))
    ∧ List.Pairwise (fun p q : Nat × D => p.1 ≤ q.1) (emitReady buf b).1
    ∧ ∀ t, t < b → ((emitReady buf b).1).filter (fun p => decide (p.1 = t))
        = ((WindowBuffer.find buf t).getD []).map fun d => (t, d) := by
  have heq : emitReady buf b
      = extractAll buf (List.insertionSort (· ≤ ·)
          ((WindowBuffer.timestamps buf).filter fun t => decide (t < b))) := rfl
  have hperm : (List.insertionSort (· ≤ ·)
        ((WindowBuffer.timestamps buf).filter fun t => decide (t < b))).Perm
      ((WindowBuffer.timestamps buf).filter fun t => decide (t < b)) :=
    List.perm_insertionSort _ _
  have hnd : (List.insertionSort (· ≤ ·)
      ((WindowBuffer.timestamps buf).filter fun t => decide (t < b))).Nodup :=
    hperm.nodup_iff.mpr (hwf.filter _)
  have hmem : ∀ x, x ∈ List.insertionSort (· ≤ ·)
        ((WindowBuffer.timestamps buf).filter fun t => decide (t < b))
      ↔ (x ∈ WindowBuffer.timestamps buf ∧ x < b) := fun x => by
    rw [hperm.mem_iff, List.mem_filter]
    simp
  have hsort : (List.insertionSort (· ≤ ·)
      ((WindowBuffer.timestamps buf).filter fun t => decide (t < b))).Pairwise (· ≤ ·) :=
    List.sorted_insertionSort _ _
  have hg : ∀ t', ∀ p ∈ ((WindowBuffer.find buf t').getD []).map fun d => (t', d),
      p.1 = t' := by
    intro t' p hp
    obtain ⟨d, -, rfl⟩ := List.mem_map.mp hp
    rfl
  refine ⟨?_, ?_, ?_, ?_⟩
  · rw [heq, extractAll_snd_of_wf _ _ hwf]
    refine List.filter_congr fun e he => ?_
    have hk : e.1 ∈ WindowBuffer.timestamps buf := List.mem_map_of_mem Prod.fst he
    by_cases hlt : e.1 < b <;> simp [hmem, hk, hlt]
  · rw [heq, extractAll_fst_of_wf _ _ hwf hnd]
    refine (hperm.flatMap_right _).trans ?_
    rw [← WindowBuffer.timestamps_filter_key buf fun t => decide (t < b)]
    rw [WindowBuffer.timestamps, List.flatMap_map]
    have hcong : (buf.filter fun e => decide (e.1 < b)).flatMap
          (fun e => ((WindowBuffer.find buf e.1).getD []).map fun d => (e.1, d))
        = (buf.filter fun e => decide (e.1 < b)).flatMap
          (fun e => e.2.map fun d => (e.1, d)) := by
      refine List.flatMap_congr fun e he => ?_
      rw [WindowBuffer.find_of_mem_wf hwf (List.mem_of_mem_filter he)]
      rfl
    rw [hcong]
    exact List.Perm.refl _
  · rw [heq, extractAll_fst_of_wf _ _ hwf hnd]
    exact pairwise_key_flatMap _ _ hsort hg
  · intro t hlt
    rw [heq, extractAll_fst_of_wf _ _ hwf hnd, flatMap_filter_key _ _ t hnd hg]
    by_cases ht : t ∈ WindowBuffer.timestamps buf
    · rw [if_pos ((hmem t).mpr ⟨ht, hlt⟩)]
    · rw [if_neg fun hc => ht ((hmem t).mp hc).1,
        WindowBuffer.find_eq_none_of_not_mem ht]
      rfl

namespace WindowRs

theorem on_new_data_buffer {D : Type} (s : TumblingWindow D) (t : Nat) (ds : List D) :
    (on_new_data s t ds).buffer = s.buffer := by
  unfold on_new_data
  cases h1 : s.emit_time <;> cases h2 : s.max_time <;> simp [h1, h2] <;> split <;> rfl

theorem give_buffer {D : Type} (s : TumblingWindow D) (t : Nat) (d : D) :
    (give s t d).buffer = WindowBuffer.store s.buffer t [d] := by
  show WindowBuffer.store (on_new_data s t [d]).buffer t [d]
      = WindowBuffer.store s.buffer t [d]
  rw [on_new_data_buffer]

theorem give_flat_perm {D : Type} (s : TumblingWindow D) (t : Nat) (d : D) :
    (flat (give s t d).buffer).Perm (flat s.buffer ++ [(t, d)]) := by
  rw [give_buffer]
  simpa using store_flat_perm s.buffer t [d]

theorem give_max_ne_none {D : Type} (s : TumblingWindow D) (t : Nat) (d : D) :
    (give s t d).max_time ≠ none := by
  show (on_new_data s t [d]).max_time ≠ none
  unfold on_new_data
  cases h1 : s.emit_time <;> cases h2 : s.max_time <;> simp [h1, h2] <;>
    split <;> simp [h2]

theorem give_emit_ne_none {D : Type} (s : TumblingWindow D) (t : Nat) (d : D) :
    (give s t d).emit_time ≠ none := by
  show (on_new_data s t [d]).emit_time ≠ none
  unfold on_new_data
  cases h1 : s.emit_time <;> cases h2 : s.max_time <;> simp [h1, h2] <;>
    split <;> simp [h1]

theorem run_conserves {D : Type} (ops : List (Op D)) (s : TumblingWindow D)
    (hinv : (s.max_time = none → s.emit_time = none)
      ∧ (s.emit_time = none → s.buffer = [])) :
    ∃ ems fin, run s ops = some (ems, fin)
      ∧ ((ems.flatMap fun e => e.2) ++ flat fin.buffer).Perm
          (flat s.buffer ++ givenRecords ops)
      ∧ (fin.max_time = none → fin.emit_time = none)
      ∧ (fin.emit_time = none → fin.buffer = []) := by
  induction ops generalizing s with
  | nil =>
    exact ⟨[], s, rfl, by simp [givenRecords], hinv.1, hinv.2⟩
  | cons op ops ih =>
    cases op with
    | give t d =>
      obtain ⟨ems, fin, hrun, hperm, hi1, hi2⟩ := ih (give s t d)
        ⟨fun hc => absurd hc (give_max_ne_none s t d),
         fun hc => absurd hc (give_emit_ne_none s t d)⟩
      refine ⟨ems, fin, hrun, ?_, hi1, hi2⟩
      refine hperm.trans ?_
      have h1 : (flat (give s t d).buffer ++ givenRecords ops).Perm
          ((flat s.buffer ++ [(t, d)]) ++ givenRecords ops) :=
        (give_flat_perm s t d).append_right _
      refine h1.trans ?_
      rw [List.append_assoc, List.singleton_append]
      exact List.Perm.refl _
    | tryEmit =>
      cases het : s.emit_time with
      | none =>
        have htry : tryEmit s = some (none, s) := by simp [tryEmit, het]
        obtain ⟨ems, fin, hrun, hperm, hi1, hi2⟩ := ih s hinv
        refine ⟨ems, fin, ?_, hperm, hi1, hi2⟩
        simp only [run, htry]
        exact hrun
      | some b =>
        have hm : ∃ m, s.max_time = some m := by
          cases hc : s.max_time with
          | none =>
            have := hinv.1 hc
            rw [het] at this
            cases this
          | some m => exact ⟨m, rfl⟩
        obtain ⟨m, hm⟩ := hm
        by_cases hlt : m < b
        · have htry : tryEmit s = some (none, s) := by simp [tryEmit, het, hm, hlt]
          obtain ⟨ems, fin, hrun, hperm, hi1, hi2⟩ := ih s hinv
          refine ⟨ems, fin, ?_, hperm, hi1, hi2⟩
          simp only [run, htry]
          exact hrun
        · have htry : tryEmit s
              = some (some (b, (emitReady s.buffer b).1),
                  { s with buffer := (emitReady s.buffer b).2,
                           emit_time := some (b + s.size) }) := by
            simp [tryEmit, het, hm, hlt]
          obtain ⟨ems, fin, hrun, hperm, hi1, hi2⟩ :=
            ih { s with buffer := (emitReady s.buffer b).2,
                        emit_time := some (b + s.size) }
              ⟨fun hc => absurd (hm.symm.trans hc) (by simp),
               fun hc => by cases hc⟩
          refine ⟨(b, (emitReady s.buffer b).1) :: ems, fin, ?_, ?_, hi1, hi2⟩
          · simp only [run, htry, hrun]
            rfl
          · simp only [List.flatMap_cons, List.append_assoc]
            refine (hperm.append_left _).trans ?_
            rw [← List.append_assoc]
            exact (emitReady_flat_perm s.buffer b).append_right _

theorem drainBatch_perm {D : Type} (s : TumblingWindow D)
    (h : s.emit_time = none → s.buffer = []) :
    (drainBatch s).Perm (flat s.buffer) := by
  unfold drainBatch drain
  cases het : s.emit_time with
  | none =>
    rw [h het]
    exact List.Perm.refl _
  | some b =>
    cases hne : (flat s.buffer).isEmpty with
    | true =>
      rw [List.isEmpty_iff] at hne
      rw [hne]
      simp
    | false =>
      simp only [hne, Bool.false_eq_true, if_false]
      exact List.perm_insertionSort _ _
end WindowRs

/-! Claim theorems. -/

/-- C1: for every sequence of `give` and `try_emit` operations on the
tumbling window (in particular any sequence of gives followed by emission
attempts after the frontier passed every given timestamp), no `try_emit`
call panics, and the multiset union of all emitted batches plus the final
`drain` batch equals exactly the multiset of given records — no record
duplicated, none omitted. -/
theorem claim_c1_completeness (D : Type) (size : Nat) (ops : List (WindowRs.Op D)) :
    ∃ ems fin, WindowRs.run (WindowRs.new D size none) ops = some (ems, fin)
      ∧ ((ems.flatMap fun e => e.2) ++ WindowRs.drainBatch fin).Perm
          (WindowRs.givenRecords ops) := by
  obtain ⟨ems, fin, hrun, hperm, hi1, hi2⟩ :=
    WindowRs.run_conserves ops (WindowRs.new D size none)
      ⟨fun _ => rfl, fun _ => rfl⟩
  refine ⟨ems, fin, hrun, ?_⟩
  have hd : (WindowRs.drainBatch fin).Perm (flat fin.buffer) :=
    WindowRs.drainBatch_perm fin hi2
  refine (hd.append_left _).trans ?_
  simpa [flat] using hperm

/-- C2: whenever the watermark-driven `try_emit` succeeds (boundary `b`
armed and strictly passed), it removes from the buffer exactly the entries
with timestamp strictly below `b` — entries at or above `b` stay unchanged —
returns the pair of `b` and the removed records flattened in
ascending-timestamp order with insertion order preserved among records
sharing a timestamp, and re-arms the boundary to `advance(b) = b + size`. -/
theorem claim_c2_emit_characterization {D : Type} (w : Frontier)
    (s : Tumbling.TumblingWindow D) (b : Nat)
    (hb : s.emit_time = some b) (hw : lessEqual w b = false)
    (hwf : WindowBuffer.WF s.buffer) :
    ∃ batch s', Tumbling.tryEmit w s = (some (b, batch), s')
      ∧ s'.emit_time = some (b + s.size)
      ∧ s'.buffer = s.buffer.filter (fun e => decide (¬ e.1 < b))
      ∧ batch.Perm (flat (s.buffer.filter fun e => decide (e.1 < b)))
      ∧ List.Pairwise (fun p q : Nat × D => p.1 ≤ q.1) batch
      ∧ ∀ t, t < b →
          batch.filter (fun p => decide (p.1 = t))
            = ((WindowBuffer.find s.buffer t).getD []).map fun d => (t, d) := by
  obtain ⟨h1, h2, h3, h4⟩ := emitReady_spec s.buffer b hwf
  refine ⟨(emitReady s.buffer b).1,
    { s with buffer := (emitReady s.buffer b).2, emit_time := some (b + s.size) },
    ?_, rfl, h1, h2, h3, h4⟩
  simp [Tumbling.tryEmit, hb, hw]

/-- C2 witness: boundary 5 armed, frontier at 6, buffered entries at
timestamps 3, 1 (two data) and 7. -/
theorem claim_c2_witness :
    ∃ batch s', Tumbling.tryEmit [6]
        ({ size := 4, emit_time := some 5,
           buffer := [(3, [10]), (1, [20, 21]), (7, [30])] } :
          Tumbling.TumblingWindow Nat) = (some (5, batch), s')
      ∧ s'.emit_time = some (5 + 4)
      ∧ s'.buffer = [(3, [10]), (1, [20, 21]), (7, [30])].filter
          (fun e => decide (¬ e.1 < 5))
      ∧ batch.Perm (flat ([(3, [10]), (1, [20, 21]), (7, [30])].filter
          fun e => decide (e.1 < 5)))
      ∧ List.Pairwise (fun p q : Nat × Nat => p.1 ≤ q.1) batch
      ∧ ∀ t, t < 5 →
          batch.filter (fun p => decide (p.1 = t))
            = ((WindowBuffer.find [(3, [10]), (1, [20, 21]), (7, [30])] t).getD []).map
                fun d => (t, d) :=
  claim_c2_emit_characterization [6]
    { size := 4, emit_time := some 5,
      buffer := [(3, [10]), (1, [20, 21]), (7, [30])] } 5 rfl rfl
    (by unfold WindowBuffer.WF WindowBuffer.timestamps; decide)

/-- C9: if upstream completes with zero records ever given to the policy,
`drain()` returns none — no empty batch is produced, whether the boundary
was never armed (no initial time) or armed but the buffer is empty. -/
theorem claim_c9_drain_of_empty_is_none (D : Type) (size : Nat) (init : Option Nat) :
    (WindowRs.drain (WindowRs.new D size init)).1 = none := by
  cases init <;> rfl

/-- C10: a data-driven `TumblingWindow` built with an initial time has its
emit boundary armed at construction, and a `try_emit` call before any record
was given panics: `max_time` is unwrapped while still unset.  The panic is
the `none` result of the model. -/
theorem claim_c10_tryEmit_before_data_panics (D : Type) (size t0 : Nat) :
    WindowRs.tryEmit (WindowRs.new D size (some t0)) = none := rfl

/-- C3: with an armed boundary `b`, the watermark-driven `try_emit` returns
none and leaves the state unchanged whenever `less_equal(b)` still holds on
the frontier; it returns a batch only when the boundary has been strictly
passed (`less_equal(b)` false). -/
theorem claim_c3_no_emit_until_passed {D : Type} (w : Frontier)
    (s : Tumbling.TumblingWindow D) (b : Nat) (hb : s.emit_time = some b) :
    (lessEqual w b = true → Tumbling.tryEmit w s = (none, s)) ∧
    (∀ e s', Tumbling.tryEmit w s = (some e, s') → lessEqual w b = false) := by
  constructor
  · intro hle
    cases s
    simp_all [Tumbling.tryEmit]
  · intro e s' heq
    cases hle : lessEqual w b
    · rfl
    · simp [Tumbling.tryEmit, hb, hle] at heq

/-- C3 witness: boundary armed at 5, frontier at 3 (not yet past 5). -/
theorem claim_c3_witness :
    (lessEqual [3] 5 = true →
      Tumbling.tryEmit [3]
          ({ size := 4, emit_time := some 5, buffer := [(1, [0])] } :
            Tumbling.TumblingWindow Nat)
        = (none, { size := 4, emit_time := some 5, buffer := [(1, [0])] })) ∧
    (∀ e s', Tumbling.tryEmit [3]
          ({ size := 4, emit_time := some 5, buffer := [(1, [0])] } :
            Tumbling.TumblingWindow Nat)
        = (some e, s') → lessEqual [3] 5 = false) :=
  claim_c3_no_emit_until_passed [3]
    { size := 4, emit_time := some 5, buffer := [(1, [0])] } 5 rfl

/-- C4 counterexample: size 4, one record at time 1 (boundary armed at 5),
frontier at 10.  The first `try_emit` closes boundary 5; the immediately
repeated call with the same watermark and no intervening give does not
return none — it closes boundary 9 (with an empty batch). -/
theorem claim_c4_counterexample :
    (Tumbling.tryEmit [10]
        ({ size := 4, emit_time := some 5, buffer := [(1, [0])] } :
          Tumbling.TumblingWindow Nat)).1 = some (5, [(1, 0)]) ∧
    (Tumbling.tryEmit [10]
        (Tumbling.tryEmit [10]
          ({ size := 4, emit_time := some 5, buffer := [(1, [0])] } :
            Tumbling.TumblingWindow Nat)).2).1 = some (9, []) ∧
    (Tumbling.tryEmit [10]
        (Tumbling.tryEmit [10]
          ({ size := 4, emit_time := some 5, buffer := [(1, [0])] } :
            Tumbling.TumblingWindow Nat)).2).1 ≠ none := by
  refine ⟨rfl, rfl, ?_⟩
  decide

/-- C4 (amended): after `try_emit` returns a batch at boundary `b`, an
immediately repeated call with the same watermark and no intervening give
returns none provided the frontier has not also strictly passed the re-armed
boundary `advance(b)`; otherwise the repeat call may close the next window. -/
theorem claim_c4_amended_no_repeat_until_next_passed {D : Type} (w : Frontier)
    (s s' : Tumbling.TumblingWindow D) (b : Nat) (batch : List (Nat × D))
    (h1 : Tumbling.tryEmit w s = (some (b, batch), s'))
    (h2 : lessEqual w (b + s.size) = true) :
    (Tumbling.tryEmit w s').1 = none := by
  cases het : s.emit_time with
  | none => simp [Tumbling.tryEmit, het] at h1
  | some b0 =>
    cases hle : lessEqual w b0 with
    | true => simp [Tumbling.tryEmit, het, hle] at h1
    | false =>
      simp only [Tumbling.tryEmit, het, hle, Bool.false_eq_true, if_false,
        Prod.mk.injEq, Option.some.injEq] at h1
      obtain ⟨⟨hb0, -⟩, hs'⟩ := h1
      subst hb0
      rw [← hs']
      simp [Tumbling.tryEmit, h2]

/-- C4 witness: frontier at 6 is past boundary 5 but not past the re-armed
boundary 9, so the repeated call returns none. -/
theorem claim_c4_witness :
    (Tumbling.tryEmit [6]
      ({ size := 4, emit_time := some 9, buffer := [] } :
        Tumbling.TumblingWindow Nat)).1 = none :=
  claim_c4_amended_no_repeat_until_next_passed [6]
    { size := 4, emit_time := some 5, buffer := [(1, [0])] }
    { size := 4, emit_time := some 9, buffer := [] } 5 [(1, 0)] rfl rfl

/-- C6 counterexample: size 4, records at times 1 and 5, so the boundary is
armed at 5 and the maximum observed timestamp equals the boundary.  The
claim requires `try_emit` to return none; the code closes the window and
emits the boundary-5 batch. -/
theorem claim_c6_counterexample :
    (WindowRs.give (WindowRs.give (WindowRs.new Nat 4 none) 1 0) 5 1).emit_time
        = some 5 ∧
    (WindowRs.give (WindowRs.give (WindowRs.new Nat 4 none) 1 0) 5 1).max_time
        = some 5 ∧
    WindowRs.tryEmit (WindowRs.give (WindowRs.give (WindowRs.new Nat 4 none) 1 0) 5 1)
      = some (some (5, [(1, 0)]),
          { size := 4, emit_time := some 9, buffer := [(5, [1])], max_time := some 5 }) :=
  ⟨rfl, rfl, rfl⟩

/-- C6 (amended): the data-driven readiness test is non-strict — with the
boundary armed at `b` and maximum observed timestamp `m`, `try_emit` returns
none exactly when `m < b`; as soon as `b ≤ m` (equality included) the window
closes and a batch is returned. -/
theorem claim_c6_amended_ready_once_max_reaches_boundary {D : Type}
    (s : WindowRs.TumblingWindow D) (b m : Nat)
    (hb : s.emit_time = some b) (hm : s.max_time = some m) :
    (m < b → WindowRs.tryEmit s = some (none, s)) ∧
    (b ≤ m → ∃ batch s', WindowRs.tryEmit s = some (some (b, batch), s')) := by
  constructor
  · intro hlt
    simp [WindowRs.tryEmit, hb, hm, hlt]
  · intro hge
    refine ⟨(emitReady s.buffer b).1,
      { s with buffer := (emitReady s.buffer b).2, emit_time := some (b + s.size) }, ?_⟩
    simp [WindowRs.tryEmit, hb, hm, Nat.not_lt.mpr hge]

/-- C6 witness: boundary 5 armed, maximum observed 5 — the `b ≤ m` branch
fires and a batch is returned. -/
theorem claim_c6_witness :
    (5 < 5 →
      WindowRs.tryEmit
          ({ size := 4, emit_time := some 5, buffer := [(1, [0]), (5, [1])],
             max_time := some 5 } : WindowRs.TumblingWindow Nat)
        = some (none,
            { size := 4, emit_time := some 5, buffer := [(1, [0]), (5, [1])],
              max_time := some 5 })) ∧
    (5 ≤ 5 → ∃ batch s',
      WindowRs.tryEmit
          ({ size := 4, emit_time := some 5, buffer := [(1, [0]), (5, [1])],
             max_time := some 5 } : WindowRs.TumblingWindow Nat)
        = some (some (5, batch), s')) :=
  claim_c6_amended_ready_once_max_reaches_boundary
    { size := 4, emit_time := some 5, buffer := [(1, [0]), (5, [1])],
      max_time := some 5 } 5 5 rfl rfl

/-- C5 counterexample: in the walkthrough run (size 4, no initial time,
records at times 1..9, emission attempted each tick, then drain) the closed
boundaries are 5 and 9 and the drain is tagged 13 — there is no batch at
boundary 4 (nor 8, nor a drain tagged 12), contradicting the claimed
emissions. -/
theorem claim_c5_counterexample :
    (WindowRs.run (WindowRs.new Nat 4 none) c5ops).map
        (fun r => (r.1.map Prod.fst, ((WindowRs.drain r.2).1).map Prod.fst))
      = some ([5, 9], some 13) := rfl

/-- C5 (amended): for size 4 with no initial time the boundary arms at
`advance(1) = 5`, so the scenario emits the batch at boundary 5 containing
the records at times {1,2,3,4}, the batch at boundary 9 containing
{5,6,7,8}, and the drain batch tagged boundary 13 containing {9} — nine
records in total with no duplicates. -/
theorem claim_c5_amended_scenario :
    WindowRs.run (WindowRs.new Nat 4 none) c5ops
      = some ([(5, [(1, 1), (2, 2), (3, 3), (4, 4)]),
               (9, [(5, 5), (6, 6), (7, 7), (8, 8)])],
          { size := 4, emit_time := some 13, buffer := [(9, [9])], max_time := some 9 }) ∧
    (WindowRs.drain
        { size := 4, emit_time := some 13, buffer := [(9, [9])], max_time := some 9 }).1
      = some (13, [(9, 9)]) :=
  ⟨rfl, rfl⟩

/-- C7 counterexample: with a step size of 0 (a legal `u64` path summary, for
which `advance(b) = b`), a closed boundary is re-armed to itself, and two
successive successful `try_emit` calls both return boundary 1 — the
boundaries of successive non-drain emissions are not strictly increasing. -/
theorem claim_c7_counterexample :
    ((Tumbling.run (Tumbling.new Nat 0 none)
        [Tumbling.Op.give 1 0, Tumbling.Op.tryEmit [5],
         Tumbling.Op.tryEmit [5]]).1.map Prod.fst = [1, 1]) ∧
    ¬ List.Pairwise (· < ·)
        ((Tumbling.run (Tumbling.new Nat 0 none)
          [Tumbling.Op.give 1 0, Tumbling.Op.tryEmit [5],
           Tumbling.Op.tryEmit [5]]).1.map Prod.fst) := by
  refine ⟨rfl, ?_⟩
  decide

/-- C7 (amended): provided the step size is positive (so `advance` strictly
advances, as a non-degenerate tumbling window has), the boundaries returned
by successive successful non-drain `try_emit` calls over any operation
sequence are strictly increasing: a closed boundary is never returned
again. -/
theorem claim_c7_amended_boundaries_strictly_increase (D : Type)
    (size : Nat) (init : Option Nat) (ops : List (Tumbling.Op D))
    (hsize : 1 ≤ size) :
    List.Pairwise (· < ·)
      ((Tumbling.run (Tumbling.new D size init) ops).1.map Prod.fst) :=
  (Tumbling.run_boundaries_pairwise ops (Tumbling.new D size init) hsize).1

/-- C7 witness: size 4, a record at time 1, two emission attempts at
frontier 10 — boundaries 5 and 9, strictly increasing. -/
theorem claim_c7_witness :
    List.Pairwise (· < ·)
      ((Tumbling.run (Tumbling.new Nat 4 none)
        [Tumbling.Op.give 1 0, Tumbling.Op.tryEmit [10],
         Tumbling.Op.tryEmit [10]]).1.map Prod.fst) :=
  claim_c7_amended_boundaries_strictly_increase Nat 4 none
    [Tumbling.Op.give 1 0, Tumbling.Op.tryEmit [10], Tumbling.Op.tryEmit [10]]
    (by decide)

/-- C8 counterexample: a store with an empty data vector — reachable through
`give_vec` or `give_iterator` with no records — creates an entry whose
collection is empty: timestamp 0 is then present but maps to no datum. -/
theorem claim_c8_counterexample :
    applyBufOps ([] : Buffer Nat) [BufOp.store 0 []] = [(0, [])] ∧
    0 ∈ WindowBuffer.timestamps (applyBufOps ([] : Buffer Nat) [BufOp.store 0 []]) ∧
    WindowBuffer.find (applyBufOps ([] : Buffer Nat) [BufOp.store 0 []]) 0 = some [] :=
  ⟨rfl, by simp [WindowBuffer.timestamps, applyBufOps, WindowBuffer.store], rfl⟩

/-- C8 (amended): provided every store carries at least one datum — which the
single-record `give` entry point guarantees — every timestamp present after
any sequence of stores and removes maps to a collection with at least one
datum; and on a duplicate-free buffer, `remove(time)` detaches and returns
the entire entry for that timestamp, leaving no entry (in particular no
empty entry) for it behind. -/
theorem claim_c8_amended_buffer_invariant (D : Type) (ops : List (BufOp D))
    (hne : ∀ t ds, BufOp.store t ds ∈ ops → ds ≠ []) :
    (∀ e ∈ applyBufOps ([] : Buffer D) ops, e.2 ≠ []) ∧
    (∀ (buf : Buffer D) (t : Nat), WindowBuffer.WF buf →
        (WindowBuffer.remove buf t).1 = WindowBuffer.find buf t ∧
        (WindowBuffer.remove buf t).2 = buf.filter fun e => decide (e.1 ≠ t)) :=
  ⟨applyBufOps_nonempty ops [] (fun e he => absurd he (List.not_mem_nil e)) hne,
   fun buf t hwf =>
    ⟨WindowBuffer.remove_fst buf t, WindowBuffer.remove_snd_of_wf buf t hwf⟩⟩

/-- C8 witness: one nonempty store then a remove. -/
theorem claim_c8_witness :
    (∀ e ∈ applyBufOps ([] : Buffer Nat) [BufOp.store 0 [1], BufOp.remove 0], e.2 ≠ []) ∧
    (∀ (buf : Buffer Nat) (t : Nat), WindowBuffer.WF buf →
        (WindowBuffer.remove buf t).1 = WindowBuffer.find buf t ∧
        (WindowBuffer.remove buf t).2 = buf.filter fun e => decide (e.1 ≠ t)) :=
  claim_c8_amended_buffer_invariant Nat [BufOp.store 0 [1], BufOp.remove 0]
    (by
      intro t ds h
      rcases List.mem_cons.mp h with h | h
      · injection h with h1 h2
        subst h2
        simp
      · rcases List.mem_cons.mp h with h | h
        · exact absurd h (by simp)
        · exact absurd h (List.not_mem_nil _))

end TimelyWindow
